import Mathlib

/-!
Verification of the core of rifle (`ranger/ext/rifle.py`) and the tag store
(`ranger/container/tags.py`), via a shallow embedding in Lean.

Conventions of the embedding:
* Python strings are Lean `String`s; iteration over characters goes through
  `String.data`.  Case mapping uses the ASCII `Char.toUpper`/`Char.toLower`
  (the configs rifle handles use ASCII flag letters).
* The mutable instance state of a `Rifle` object (`_app_flags`, `_app_label`,
  `_skip`, `_mimetype`) is an explicit `EvalState` record threaded through the
  functions that read or write it.
* Process-level effects (PATH lookup, terminal detection, `DISPLAY`,
  the `file --mime-type` subprocess, `os.path.abspath`, `$TERMCMD`/`$TERM`)
  are an explicit read-only `Env` record; `$TERM` is assumed to be set, as
  rifle crashes otherwise.  Logging is returned as a list of strings.
* Python's `re.search` is embedded for the fragment of regular expressions
  rifle itself constructs: literal characters, top-level alternation `|`,
  and the anchors `^` and `$` (with `$` also matching just before a trailing
  newline, as in Python).  `RE` is the syntax, `run` the matcher; theorems
  quantifying over patterns restrict them to this fragment.
* A Python value that may be `None` or a `bool` is an `Option Bool`;
  `truthyOpt` is Python truthiness on it.
-/

namespace RifleSpec

/-- The `exclude` string of `squash_flags`: for every character equal to its
own uppercase form, its uppercase and lowercase forms. -/
def excludeOf (flags : List Char) : List Char :=
  (flags.filter (fun f => f.toUpper = f)).flatMap (fun f => [f.toUpper, f.toLower])

/-- The characters of the input not excluded by `excludeOf`. -/
def squashList (flags : List Char) : List Char :=
  flags.filter (fun f => !(excludeOf flags).contains f)

/-- Embedding of `squash_flags` (rifle.py lines 45-57). -/
def squash_flags (flags : String) : String :=
  String.mk (squashList flags.data)

/-- Syntax of the regular-expression fragment rifle constructs: literal
characters, concatenation, alternation, and the anchors `^` and `$`. -/
inductive RE where
  | eps : RE
  | ch : Char → RE
  | seq : RE → RE → RE
  | alt : RE → RE → RE
  | caret : RE
  | dollar : RE
deriving Repr, DecidableEq

/-- `run p s i` = the list of end positions of matches of `p` in `s`
starting at position `i`.  Python's default (non-multiline) anchor rules:
`caret` matches only at position 0, and `dollar` matches at the end of the
string or just before a newline at the end of the string. -/
def run : RE → List Char → Nat → List Nat
  | RE.eps, _, i => [i]
  | RE.ch c, s, i => if s[i]? = some c then [i + 1] else []
  | RE.seq a b, s, i => (run a s i).flatMap (run b s)
  | RE.alt a b, s, i => run a s i ++ run b s i
  | RE.caret, _, i => if i = 0 then [i] else []
  | RE.dollar, s, i =>
    if i = s.length ∨ (i + 1 = s.length ∧ s[i]? = some '\n') then [i] else []

/-- `re.search` semantics: the pattern matches starting at some position. -/
def searchB (p : RE) (s : List Char) : Bool :=
  (List.range (s.length + 1)).any (fun i => !(run p s i).isEmpty)

/-- Whole-string match of a pattern against a string (no implicit anchors):
some match starting at 0 consumes the entire string. -/
def fullMatch (p : RE) (s : List Char) : Bool :=
  (run p s 0).contains s.length

/-- Python `str.split(sep)` for a one-character separator, on character
lists (structurally recursive so that proofs can evaluate it). -/
def splitOnChar (sep : Char) : List Char → List (List Char)
  | [] => [[]]
  | c :: cs =>
    if c = sep then [] :: splitOnChar sep cs
    else
      match splitOnChar sep cs with
      | [] => [[c]]
      | b :: bs => (c :: b) :: bs

/-- Python `str.strip()`: drop leading and trailing whitespace. -/
def trimList (l : List Char) : List Char :=
  ((l.dropWhile Char.isWhitespace).reverse.dropWhile Char.isWhitespace).reverse

/-- `str.strip()` on strings. -/
def strTrim (s : String) : String :=
  String.mk (trimList s.data)

/-- Python `str.startswith`. -/
def strStarts (p s : String) : Bool :=
  p.data.isPrefixOf s.data

/-- Python `str.replace(old, new)` for a one-character `old`. -/
def replaceChar (old : Char) (rep : List Char) (l : List Char) : List Char :=
  l.flatMap (fun x => if x = old then rep else [x])

/-- Python `int(s)` for a string of decimal digits. -/
def natOfDigits (l : List Char) : Nat :=
  l.foldl (fun n c => n * 10 + (c.toNat - 48)) 0

/-- Split a pattern at top-level alternation bars. -/
def splitBar (s : List Char) : List (List Char) :=
  splitOnChar '|' s

/-- One pattern atom: an anchor or a literal character. -/
def atomRE (c : Char) : RE :=
  if c = '^' then RE.caret else if c = '$' then RE.dollar else RE.ch c

/-- True when Python `re` treats the character as a literal outside
character classes: it is none of the metacharacters
`. ^ $ * + ? { } [ ] \ | ( )` (the braces written as escapes). -/
def regexLiteralChar (c : Char) : Bool :=
  !(['.', '^', '$', '*', '+', '?', '\x7b', '\x7d', '[', ']', '\\', '|', '(', ')'].contains c)

/-- An alternation-free branch: the sequence of its atoms. -/
def seqRE : List Char → RE
  | [] => RE.eps
  | c :: cs => RE.seq (atomRE c) (seqRE cs)

/-- Combine alternation branches. -/
def parseBranches : List (List Char) → RE
  | [] => RE.eps
  | [b] => seqRE b
  | b :: bs => RE.alt (seqRE b) (parseBranches bs)

/-- Parse a pattern of the fragment: branches separated by `|`. -/
def parseRE (s : List Char) : RE :=
  parseBranches (splitBar s)

/-- `bool(re.search(pattern, s))` for patterns of the fragment. -/
def reSearchStr (pattern : List Char) (s : String) : Bool :=
  searchB (parseRE pattern) s.data

/-- `os.path.basename`: the substring after the last `/`. -/
def basename (s : String) : String :=
  String.mk ((splitOnChar '/' s.data).getLastD [])

/-- `os.path.basename(f).rsplit('.', 1)[-1]` — the extension as rifle
computes it (the whole base name when it contains no dot). -/
def extensionOf (f : String) : String :=
  String.mk ((splitOnChar '.' (basename f).data).getLastD [])

/-- Python `str.isdigit` restricted to ASCII digits. -/
def isdigit (s : String) : Bool :=
  !s.data.isEmpty && s.data.all Char.isDigit

/-- Truthiness of the `label` argument (`None` and `""` are falsy). -/
def labelTruthy : Option String → Bool
  | none => false
  | some s => s ≠ ""

/-- Python truthiness of a value that is `None` or a `bool`. -/
def truthyOpt : Option Bool → Bool
  | none => false
  | some b => b

/-- `s.startswith('!')`. -/
def bangPrefixed (s : String) : Bool :=
  match s.data with
  | [] => false
  | c :: _ => c = '!'

/-- `s[1:]` (drop the first character). -/
def dropFirstChar (s : String) : String :=
  String.mk (s.data.drop 1)

/-- The mutable scratch state of a `Rifle` instance: `_app_flags`,
`_app_label`, `_skip` and the `_mimetype` cache. -/
structure EvalState where
  app_flags : String
  app_label : Option String
  skip : Option Nat
  mimetype : Option String
deriving Repr, DecidableEq

/-- A fresh instance state (`__init__` sets flags `''` and label `None`). -/
def st0 : EvalState := ⟨"", none, none, none⟩

/-- The process environment and external collaborators rifle consults:
`get_executables()`, `_is_terminal()`, `DISPLAY`, the `file --mime-type`
subprocess, `os.path.abspath`, `$TERMCMD` and `$TERM`. -/
structure Env where
  executables : List String
  isTerminal : Bool
  display : Bool
  mimeOf : String → String
  abspathOf : String → String
  termcmd : Option String
  term : String

/-- A concrete environment for witnesses: nothing installed, no terminal,
no display. -/
def env0 : Env := ⟨[], false, false, fun _ => "", fun _ => "", none, ""⟩

/-- Embedding of `Rifle._get_mimetype`: return the cached value if truthy,
otherwise consult the external lookup and cache the result. -/
def get_mimetype (st : EvalState) (env : Env) (fname : String) : String × EvalState :=
  match st.mimetype with
  | some m =>
    if m ≠ "" then (m, st)
    else
      let m' := env.mimeOf fname
      (m', { st with mimetype := some m' })
  | none =>
    let m' := env.mimeOf fname
    (m', { st with mimetype := some m' })

/-- Embedding of `Rifle._eval_condition2` (rifle.py lines 124-161): the
condition body, after negation was handled.  Returns the Python return value
(`none` models the implicit `None` of the final fall-through) and the
updated state.  The `if not files: return False` guard precedes every
function branch, exactly as in the source. -/
def eval_condition2 (rule : List String) (files : List String) (label : Option String)
    (st : EvalState) (env : Env) : Option Bool × EvalState :=
  let function := rule.headD ""
  let argument := rule.getD 1 ""
  if files.isEmpty then (some false, st)
  else
    let first := files.headD ""
    if function = "ext" then
      (some (reSearchStr (('^' :: argument.data) ++ ['$']) (extensionOf first)), st)
    else if function = "name" then
      (some (reSearchStr argument.data (basename first)), st)
    else if function = "path" then
      (some (reSearchStr argument.data (env.abspathOf first)), st)
    else if function = "mime" then
      let (mt, st') := get_mimetype st env first
      (some (reSearchStr argument.data mt), st')
    else if function = "has" then
      (some (env.executables.contains argument), st)
    else if function = "terminal" then
      (some env.isTerminal, st)
    else if function = "number" then
      if isdigit argument then (some true, { st with skip := some (natOfDigits argument.data) })
      else (some true, st)
    else if function = "label" then
      let st' := { st with app_label := some argument }
      match label with
      | some l => if l ≠ "" then (some (decide (argument = l)), st') else (some true, st')
      | none => (some true, st')
    else if function = "flag" then
      (some true, { st with app_flags := argument })
    else if function = "X" then
      (some env.display, st)
    else if function = "else" then
      (some true, st)
    else
      (none, st)

/-- Embedding of `Rifle._eval_condition` (rifle.py lines 113-122): an empty
condition is true; a `!`-prefixed function name evaluates the stripped
condition and inverts the truthiness of its result. -/
def eval_condition (condition : List String) (files : List String) (label : Option String)
    (st : EvalState) (env : Env) : Option Bool × EvalState :=
  match condition with
  | [] => (some true, st)
  | c :: rest =>
    if bangPrefixed c then
      let r := eval_condition2 (dropFirstChar c :: rest) files label st env
      (some (!(truthyOpt r.1)), r.2)
    else
      eval_condition2 (c :: rest) files label st env

/-- One condition clause: `f.strip().split(None, 1)` — the function name up
to the first whitespace run, then the remainder (if any), as rifle's
`reload_config` builds it.  An all-whitespace clause becomes the empty
tuple. -/
def parseCond (f : String) : List String :=
  let t := (strTrim f).data
  let nm := t.takeWhile (fun c => ¬ c.isWhitespace)
  let rest := (t.dropWhile (fun c => ¬ c.isWhitespace)).dropWhile Char.isWhitespace
  if nm.isEmpty then []
  else if rest.isEmpty then [String.mk nm]
  else [String.mk nm, String.mk rest]

/-- Python `sep.join(xs)`. -/
def strIntercalate (sep : String) : List String → String
  | [] => ""
  | [a] => a
  | a :: rest => a ++ sep ++ strIntercalate sep rest

/-- A loaded rule: the command template and the condition tuples. -/
abbrev Rule := String × List (List String)

/-- The loop body of `Rifle.reload_config` (rifle.py lines 87-111) over the
lines of the config file (each line given without its trailing newline).
Returns the rules in file order and the diagnostics `(lineno, message)` in
emission order.  Note the faithful quirk of the source: `lineno` is not
incremented for skipped comment/blank lines, because `continue` jumps over
the `lineno += 1` at the end of the loop body. -/
def reloadAux : List String → Nat → List Rule × List (Nat × String)
  | [], _ => ([], [])
  | line :: rest, lineno =>
    if strStarts "#" line ∨ line = "" then
      reloadAux rest lineno
    else
      let r := reloadAux rest (lineno + 1)
      let l := strTrim line
      if l.data.contains '=' then
        let parts := (splitOnChar '=' l.data).map String.mk
        let tests := parts.headD ""
        let command := strIntercalate "=" parts.tail
        let conds := ((splitOnChar ',' tests.data).map String.mk).map parseCond
        ((strTrim command, conds) :: r.1, r.2)
      else
        (r.1, (lineno, "Line without delimiter") :: r.2)

/-- Embedding of `Rifle.reload_config`: process the lines starting with
`lineno = 1`. -/
def reload_config (lines : List String) : List Rule × List (Nat × String) :=
  reloadAux lines 1

/-- One element yielded by `list_commands`: the tuple
`(count, cmd, label, flags)` together with `snap`, the instance state at the
moment of the yield (the state a consumer of the paused generator
observes). -/
structure RMatch where
  count : Int
  cmd : String
  lbl : Option String
  flags : String
  snap : EvalState
deriving Repr

/-- The per-rule reset at the top of the `list_commands` loop:
`self._skip = None; self._app_flags = ''; self._app_label = None`. -/
def resetState (st : EvalState) : EvalState :=
  { st with skip := none, app_flags := "", app_label := none }

/-- The inner loop of `list_commands`: evaluate the condition tuples in
order with `label = None`, stopping at the first falsy result. -/
def evalTests (tests : List (List String)) (files : List String) (env : Env)
    (st : EvalState) : Bool × EvalState :=
  match tests with
  | [] => (true, st)
  | t :: ts =>
    let r := eval_condition t files none st env
    if truthyOpt r.1 then evalTests ts files env r.2 else (false, r.2)

/-- The loop of `Rifle.list_commands` (rifle.py lines 207-230), carrying the
running `count` and the instance state across rules. -/
def listCommandsAux (rules : List Rule) (files : List String) (env : Env)
    (count : Int) (st : EvalState) : List RMatch × EvalState :=
  match rules with
  | [] => ([], st)
  | (cmd, tests) :: rest =>
    let s1 := resetState st
    let r := evalTests tests files env s1
    if r.1 then
      let c' : Int := match r.2.skip with | none => count + 1 | some k => (k : Int)
      let m : RMatch := ⟨c', cmd, r.2.app_label, r.2.app_flags, r.2⟩
      let rec' := listCommandsAux rest files env c' r.2
      (m :: rec'.1, rec'.2)
    else
      listCommandsAux rest files env count r.2

/-- Embedding of `Rifle.list_commands`: set the mimetype cache from the
parameter, start the counter at `-1`, and return the yields plus the
instance state after the generator is exhausted. -/
def list_commands (rules : List Rule) (files : List String) (env : Env)
    (mimetype : Option String) (st : EvalState) : List RMatch × EvalState :=
  listCommandsAux rules files env (-1) { st with mimetype := mimetype }

/-- Embedding of `Rifle._apply_flags` (rifle.py lines 186-205): wrap the
action according to the `r`, `t` and `f` flags.  Returns the wrapped action,
the environment (`$TERMCMD` may be set by the `t` branch even when the
detected terminal is not an available executable), and the logged
warnings. -/
def apply_flags (action : String) (flags : String) (env : Env) :
    String × Env × List String :=
  let a1 := if flags.data.contains 'r' then "sudo " ++ action else action
  let tr :=
    if flags.data.contains 't' then
      match env.termcmd with
      | some _ => ("$TERMCMD -e " ++ a1, env, ([] : List String))
      | none =>
        let t1 := if strStarts "rxvt-unicode" env.term then "urxvt" else env.term
        let logs :=
          if env.executables.contains t1 then ([] : List String)
          else ["Can not determine terminal command.  Please set $TERMCMD manually."]
        ("$TERMCMD -e " ++ a1, { env with termcmd := some t1 }, logs)
    else (a1, env, ([] : List String))
  let a3 :=
    if flags.data.contains 'f' then
      if env.executables.contains "setsid" then
        "setsid " ++ tr.1 ++ " > /dev/null 2> /dev/null &"
      else
        "nohup " ++ tr.1 ++ " > /dev/null 2> /dev/null &"
    else tr.1
  (a3, tr.2.1, tr.2.2)

/-- Embedding of `Rifle._build_command` (rifle.py lines 171-184): when the
`flags` argument is a string it is appended to `_app_flags`, then
`_app_flags` is squashed and used as the flag string; the command is the
`set --` preamble binding the quoted filenames (names containing a null
byte are skipped) followed by the flag-wrapped action. -/
def build_command (files : List String) (action : String) (flags : Option String)
    (st : EvalState) (env : Env) : String × EvalState × Env × List String :=
  let st1 :=
    match flags with
    | some fs => { st with app_flags := st.app_flags ++ fs }
    | none => st
  let st2 := { st1 with app_flags := squash_flags st1.app_flags }
  let filenames := strIntercalate "' '"
    ((files.filter (fun f => !(f.data.contains '\x00'))).map
      (fun f => String.mk (replaceChar '\'' ("'\\''".data) f.data)))
  let command := "set -- '" ++ filenames ++ "'" ++ "\n"
  let w := apply_flags action st2.app_flags env
  (command ++ w.1, st2, w.2.1, w.2.2)

/-- The Python truthiness test `label and label == lbl or not label and
count == number` selecting the match in `execute`. -/
def matchWanted (label : Option String) (number : Int) (m : RMatch) : Bool :=
  if labelTruthy label then m.lbl = label else m.count = number

/-- Embedding of the command-determination part of `Rifle.execute`
(rifle.py lines 232-258), up to and including `_build_command` (the spawn
is elided).  The default `hook_command_preprocessing` is the identity.
Faithful quirk of the source: the loop variable `flags` of
`for count, cmd, lbl, flags in self.list_commands(...)` shadows the `flags`
parameter, so in the fallback branch the flags are the last yielded match's
flags when the generator yielded at all, and the caller's parameter only
otherwise; in the matched branch `_build_command` receives the rule's own
flags, never the caller's. -/
def executeCommand (rules : List Rule) (files : List String) (number : Int)
    (label : Option String) (flags : Option String) (mimetype : Option String)
    (env : Env) (st : EvalState) : Option (String × EvalState × Env × List String) :=
  let g := list_commands rules files env mimetype st
  match g.1.find? (matchWanted label number) with
  | some m => some (build_command files m.cmd (some m.flags) m.snap env)
  | none =>
    match label with
    | some l =>
      if l ≠ "" ∧ env.executables.contains l then
        let cmd := l ++ " -- \"$@\""
        let flagsVar :=
          match g.1.getLast? with
          | some m => some m.flags
          | none => flags
        some (build_command files cmd flagsVar g.2 env)
      else none
    | none => none

/-- The tag store of `ranger/container/tags.py`.  The backing file is
modelled as the set of its lines (the on-disk order carries no meaning:
`_compile` iterates a Python set). -/
structure TagsState where
  tags : Finset String
  tagfile : Finset String
deriving DecidableEq

/-- Embedding of `Tags._parse`: one stripped token per line. -/
def tags_parse (lines : Finset String) : Finset String :=
  lines.image strTrim

/-- Embedding of `Tags.sync` (with a readable file): replace `tags` by the
parse of the file. -/
def tags_sync (s : TagsState) : TagsState :=
  { s with tags := tags_parse s.tagfile }

/-- Embedding of `Tags.dump`/`Tags._compile`: write one line per tag. -/
def tags_dump (s : TagsState) : TagsState :=
  { s with tagfile := s.tags }

/-- Embedding of `Tags.__init__` on an existing (possibly empty) file:
construct and `sync`. -/
def tags_init (f : Finset String) : TagsState :=
  tags_sync ⟨∅, f⟩

/-- Embedding of `Tags.add`: `sync`, insert each item, `dump`. -/
def tags_add (items : List String) (s : TagsState) : TagsState :=
  let s1 := tags_sync s
  tags_dump { s1 with tags := items.foldl (fun t i => insert i t) s1.tags }

/-- Embedding of `Tags.toggle`: `sync`, then per item remove it when
present and insert it when absent, `dump`. -/
def tags_toggle (items : List String) (s : TagsState) : TagsState :=
  let s1 := tags_sync s
  tags_dump
    { s1 with tags := items.foldl (fun t i => if i ∈ t then t.erase i else insert i t) s1.tags }

/-! ### Lemmas about flag squashing -/

/-- A surviving character of `squashList` is a character of the input that
differs from its own uppercase form. -/
lemma toUpper_ne_of_mem_squashList {c : Char} {l : List Char}
    (h : c ∈ squashList l) : c ∈ l ∧ c.toUpper ≠ c := by
  rw [squashList, List.mem_filter] at h
  obtain ⟨hmem, hpred⟩ := h
  refine ⟨hmem, ?_⟩
  intro heq
  rw [Bool.not_eq_eq_eq_not, Bool.not_true] at hpred
  have hnot : c ∉ excludeOf l := by simpa using hpred
  apply hnot
  rw [excludeOf, List.mem_flatMap]
  refine ⟨c, ?_, ?_⟩
  · rw [List.mem_filter]
    exact ⟨hmem, by simp [heq]⟩
  · simp [heq]

/-- No character of `squashList l` equals its own uppercase form, so the
`exclude` string computed from the squashed string is empty. -/
lemma excludeOf_squashList (l : List Char) : excludeOf (squashList l) = [] := by
  rw [excludeOf]
  have : (squashList l).filter (fun f => f.toUpper = f) = [] := by
    rw [List.filter_eq_nil_iff]
    intro a ha
    simpa using (toUpper_ne_of_mem_squashList ha).2
  rw [this]
  rfl

/-- Claim C8: `squash` is idempotent, and on the spec's three examples it
returns `"abc"`, `"ab"` and `"bd"` respectively, preserving the input order
of the surviving characters. -/
theorem squash_flags_idempotent :
    (∀ s : String, squash_flags (squash_flags s) = squash_flags s)
    ∧ squash_flags "abc" = "abc"
    ∧ squash_flags "abcC" = "ab"
    ∧ squash_flags "CabcAd" = "bd" := by
  refine ⟨?_, by decide, by decide, by decide⟩
  intro s
  show String.mk (squashList (String.mk (squashList s.data)).data) = String.mk (squashList s.data)
  have : (String.mk (squashList s.data)).data = squashList s.data := rfl
  rw [this]
  congr 1
  rw [squashList, excludeOf_squashList]
  rw [List.filter_eq_self]
  intro a _
  rfl

/-! ### Lemmas about the regular-expression fragment -/

/-- Splitting at a separator that does not occur returns the whole list. -/
lemma splitOnChar_no_sep {sep : Char} {s : List Char} (h : sep ∉ s) :
    splitOnChar sep s = [s] := by
  induction s with
  | nil => rfl
  | cons c cs ih =>
    have hc : ¬ c = sep := fun hc => h (hc ▸ List.mem_cons_self c cs)
    have hcs : sep ∉ cs := fun hm => h (List.mem_cons_of_mem c hm)
    unfold splitOnChar
    rw [if_neg hc, ih hcs]

/-- A pattern without an alternation bar splits into a single branch. -/
lemma splitBar_no_bar {s : List Char} (h : '|' ∉ s) : splitBar s = [s] :=
  splitOnChar_no_sep h

/-- Parsing an alternation-free pattern yields the branch sequence. -/
lemma parseRE_no_bar {s : List Char} (h : '|' ∉ s) : parseRE s = seqRE s := by
  rw [parseRE, splitBar_no_bar h]
  rfl

/-- Runs of a concatenated branch decompose through `flatMap`. -/
lemma run_seqRE_append (xs ys : List Char) (s : List Char) (i : Nat) :
    run (seqRE (xs ++ ys)) s i = (run (seqRE xs) s i).flatMap (run (seqRE ys) s) := by
  induction xs generalizing i with
  | nil => simp [seqRE, run]
  | cons c cs ih =>
    simp only [List.cons_append, seqRE, run, List.flatMap_assoc]
    exact List.flatMap_congr (fun j _ => ih j)

/-- The caret at the head of an anchored pattern restricts search to
position 0. -/
lemma searchB_caret_seq (q : RE) (s : List Char) :
    searchB (RE.seq RE.caret q) s = !(run q s 0).isEmpty := by
  rw [searchB, List.range_succ_eq_map, List.any_cons, List.any_map]
  have h0 : run (RE.seq RE.caret q) s 0 = run q s 0 := by
    simp [run]
  have hs : ∀ j : Nat, run (RE.seq RE.caret q) s (Nat.succ j) = [] := by
    intro j
    simp [run]
  have : (List.range s.length).any ((fun i => !(run (RE.seq RE.caret q) s i).isEmpty) ∘ Nat.succ)
      = false := by
    rw [List.any_eq_false]
    intro j _
    simp [hs j]
  rw [this, h0, Bool.or_false]

/-- The single dollar atom, sequenced, keeps a run exactly at Python's `$`
positions: the end of the string, or just before a trailing newline. -/
lemma run_seqRE_dollar (s : List Char) (j : Nat) :
    run (seqRE ['$']) s j
      = if j = s.length ∨ (j + 1 = s.length ∧ s[j]? = some '\n') then [j] else [] := by
  have ha : seqRE ['$'] = RE.seq RE.dollar RE.eps := rfl
  rw [ha]
  simp only [run]
  split
  · simp
  · simp

/-- Prefix of a suffix, unfolded one character: used to evaluate runs of
literal-only patterns. -/
lemma cons_prefix_drop (c : Char) (cs s : List Char) (i : Nat) :
    c :: cs <+: s.drop i ↔ s[i]? = some c ∧ cs <+: s.drop (i + 1) := by
  have hg0 : (s.drop i)[0]? = s[i]? := by simp [List.getElem?_drop]
  have hd1 : (s.drop i).drop 1 = s.drop (i + 1) := by rw [List.drop_drop]
  cases h : s.drop i with
  | nil =>
    have hg : s[i]? = none := by rw [← hg0, h]; rfl
    simp [hg]
  | cons a t =>
    have hg : s[i]? = some a := by rw [← hg0, h]; simp
    have hd : s.drop (i + 1) = t := by rw [← hd1, h]; simp
    rw [hg, hd, List.cons_prefix_cons]
    simp [eq_comm]

/-- A literal-only pattern run from position `i` matches exactly when the
pattern is a prefix of the rest of the string, consuming its length. -/
lemma run_literal (s : List Char) : ∀ (p : List Char),
    (∀ c ∈ p, regexLiteralChar c = true) → ∀ i,
    run (seqRE p) s i = if p <+: s.drop i then [i + p.length] else [] := by
  intro p
  induction p with
  | nil =>
    intro _ i
    simp [seqRE, run, List.nil_prefix]
  | cons c cs ih =>
    intro hP i
    have hc : regexLiteralChar c = true := hP c (List.mem_cons_self _ _)
    have hcs : ∀ d ∈ cs, regexLiteralChar d = true :=
      fun d hd => hP d (List.mem_cons_of_mem _ hd)
    have hat : atomRE c = RE.ch c := by
      unfold atomRE
      have h1 : ¬ c = '^' := by rintro rfl; exact absurd hc (by decide)
      have h2 : ¬ c = '$' := by rintro rfl; exact absurd hc (by decide)
      rw [if_neg h1, if_neg h2]
    rw [seqRE, hat]
    simp only [run]
    by_cases hg : s[i]? = some c
    · rw [if_pos hg]
      simp only [List.flatMap_cons, List.flatMap_nil, List.append_nil]
      rw [ih hcs (i + 1)]
      by_cases hcp : cs <+: s.drop (i + 1)
      · rw [if_pos hcp, if_pos ((cons_prefix_drop c cs s i).mpr ⟨hg, hcp⟩)]
        simp only [List.length_cons, List.cons.injEq, and_true]
        omega
      · rw [if_neg hcp, if_neg (fun hpre => hcp ((cons_prefix_drop c cs s i).mp hpre).2)]
    · rw [if_neg hg]
      rw [if_neg (fun hpre => hg ((cons_prefix_drop c cs s i).mp hpre).1)]
      simp

/-- For a pattern of literal characters only, searching the string wrapped
as `'^' ++ p ++ '$'` (the way the `ext` condition builds its regex) accepts
exactly the pattern itself or the pattern followed by one trailing newline
(Python's `$` matches just before a terminal newline). -/
lemma anchored_literal_search (s : List Char) {p : List Char}
    (hP : ∀ c ∈ p, regexLiteralChar c = true) :
    searchB (parseRE (('^' :: p) ++ ['$'])) s
      = (decide (s = p) || decide (s = p ++ ['\n'])) := by
  have hbar : '|' ∉ p := by
    intro hm
    exact absurd (hP '|' hm) (by decide)
  have h2 : '|' ∉ ('^' :: p) ++ ['$'] := by
    intro hm
    rcases List.mem_append.1 hm with hm | hm
    · rcases List.mem_cons.1 hm with hm | hm
      · exact absurd hm (by decide)
      · exact hbar hm
    · exact absurd hm (by decide)
  rw [parseRE_no_bar h2, List.cons_append]
  show searchB (RE.seq (atomRE '^') (seqRE (p ++ ['$']))) s = _
  have ha : atomRE '^' = RE.caret := rfl
  rw [ha, searchB_caret_seq, run_seqRE_append, run_literal s p hP 0]
  by_cases hpre : p <+: s.drop 0
  · rw [if_pos hpre]
    rw [List.drop_zero] at hpre
    simp only [List.flatMap_cons, List.flatMap_nil, List.append_nil]
    rw [run_seqRE_dollar]
    simp only [Nat.zero_add]
    have key : (p.length = s.length ∨ (p.length + 1 = s.length ∧ s[p.length]? = some '\n'))
        ↔ (s = p ∨ s = p ++ ['\n']) := by
      constructor
      · rintro (hlen | ⟨hlen, hnl⟩)
        · exact Or.inl (hpre.eq_of_length hlen).symm
        · right
          obtain ⟨t, rfl⟩ := hpre
          have hlt : t.length = 1 := by
            simp only [List.length_append] at hlen
            omega
          obtain ⟨a, rfl⟩ := List.length_eq_one.mp hlt
          have hga : (p ++ [a])[p.length]? = some a := by simp
          rw [hga] at hnl
          have : a = '\n' := by simpa using hnl
          rw [this]
      · rintro (rfl | rfl)
        · exact Or.inl rfl
        · exact Or.inr ⟨by simp, by simp⟩
    by_cases hC : (p.length = s.length ∨ (p.length + 1 = s.length ∧ s[p.length]? = some '\n'))
    · rw [if_pos hC]
      rcases key.mp hC with rfl | rfl <;> simp
    · rw [if_neg hC]
      obtain ⟨h1', h2'⟩ := not_or.mp (fun hor => hC (key.mpr hor))
      simp [h1', h2']
  · rw [if_neg hpre]
    rw [List.drop_zero] at hpre
    have h1' : ¬ s = p := by rintro rfl; exact hpre (List.prefix_refl s)
    have h2' : ¬ s = p ++ ['\n'] := by rintro rfl; exact hpre (List.prefix_append p ['\n'])
    simp [h1', h2']

/-- Claim C4 counterexample: with pattern `jpg|png` on the file `f.jpgx`
(extension `jpgx`), the `ext` condition evaluates to true although the whole
extension does not match the pattern: `search('^' + P + '$')` anchors only
the outer branches of a top-level alternation. -/
theorem ext_anchoring_counterexample :
    (eval_condition2 ["ext", "jpg|png"] ["f.jpgx"] none st0 env0).1 = some true
    ∧ fullMatch (parseRE ("jpg|png").data) (extensionOf "f.jpgx").data = false := by
  exact ⟨by decide, by decide⟩

/-- Claim C4 (amended): for a pattern of regex-literal characters only and a
non-empty file list, the `ext` condition is true exactly when the extension
equals the pattern, or equals the pattern followed by one trailing newline
(Python's `$` also matches just before a terminal newline); the evaluation
state is untouched.  For general patterns the condition is
`re.search('^' + P + '$', extension)`, whose anchors attach per alternation
branch, as the counterexample shows. -/
theorem ext_literal_pattern_match (P f : String) (fs : List String) (l : Option String)
    (st : EvalState) (env : Env) (hP : ∀ c ∈ P.data, regexLiteralChar c = true) :
    eval_condition2 ["ext", P] (f :: fs) l st env
      = (some (decide (extensionOf f = P ∨ extensionOf f = P ++ "\n")), st) := by
  show (some (reSearchStr (('^' :: P.data) ++ ['$']) (extensionOf f)), st) = _
  rw [reSearchStr, anchored_literal_search _ hP]
  have hnl : ("\n" : String).data = ['\n'] := rfl
  have e1 : ((extensionOf f).data = P.data) ↔ (extensionOf f = P) :=
    String.ext_iff.symm
  have e2 : ((extensionOf f).data = P.data ++ ['\n']) ↔ (extensionOf f = P ++ "\n") := by
    rw [String.ext_iff, String.data_append, hnl]
  simp [e1, e2]

/-- Witness for `ext_literal_pattern_match` at pattern `txt` and file
`a.txt`. -/
theorem ext_literal_pattern_match_witness :
    (∀ c ∈ ("txt" : String).data, regexLiteralChar c = true)
    ∧ eval_condition2 ["ext", "txt"] ["a.txt"] none st0 env0
        = (some (decide (extensionOf "a.txt" = "txt" ∨ extensionOf "a.txt" = "txt" ++ "\n")), st0) :=
  ⟨by decide, ext_literal_pattern_match "txt" "a.txt" [] none st0 env0 (by decide)⟩

/-! ### Theorems about condition evaluation -/

/-- The function names `_eval_condition2` recognizes. -/
def recognizedNames : List String :=
  ["ext", "name", "path", "mime", "has", "terminal", "number", "label", "flag", "X", "else"]

/-- Claim C2 counterexample: a config rule with the unrecognized function
name `foo` loads with no diagnostic at all, and evaluating that condition at
evaluation time falls through every recognized branch (the Python `None`
result, modelled as `none`). -/
theorem unknown_name_counterexample :
    reload_config ["foo x = bar"] = ([("bar", [["foo", "x"]])], [])
    ∧ (eval_condition2 ["foo", "x"] ["f"] none st0 env0).1 = none := by
  exact ⟨by decide, by decide⟩

/-- Claim C2 (amended): the loader performs no function-name validation
(an unrecognized name loads silently, e.g. `foo x = bar`), and evaluating a
condition with an unrecognized function name on a non-empty file list
returns `none` (falsy) and leaves the state untouched. -/
theorem unknown_name_falls_through :
    reload_config ["foo x = bar"] = ([("bar", [["foo", "x"]])], [])
    ∧ ∀ (nm arg : String) (files : List String) (l : Option String) (st : EvalState)
        (env : Env), nm ∉ recognizedNames → files ≠ [] →
        eval_condition2 [nm, arg] files l st env = (none, st) := by
  refine ⟨by decide, ?_⟩
  intro nm arg files l st env hnm hfiles
  obtain ⟨f, fs, rfl⟩ := List.exists_cons_of_ne_nil hfiles
  simp only [recognizedNames, List.mem_cons, List.not_mem_nil, or_false, not_or] at hnm
  obtain ⟨h1, h2, h3, h4, h5, h6, h7, h8, h9, h10, h11⟩ := hnm
  simp [eval_condition2, h1, h2, h3, h4, h5, h6, h7, h8, h9, h10, h11]

/-- Witness for `unknown_name_falls_through` at the name `zzz`. -/
theorem unknown_name_falls_through_witness :
    (("zzz" : String) ∉ recognizedNames ∧ (["f"] : List String) ≠ [])
    ∧ eval_condition2 ["zzz", "y"] ["f"] none st0 env0 = (none, st0) :=
  ⟨⟨by decide, by decide⟩,
    unknown_name_falls_through.2 "zzz" "y" ["f"] none st0 env0 (by decide) (by decide)⟩

/-- Claim C5 counterexample: on the empty file list a non-negated `else`
condition evaluates to `False`, not true, because the
`if not files: return False` guard precedes the `else` branch. -/
theorem else_empty_counterexample :
    eval_condition ["else"] [] none st0 env0 = (some false, st0) := by
  decide

/-- Claim C5 (amended): a non-negated `else` condition evaluates to true on
every non-empty file list, leaving the state untouched; on the empty file
list it evaluates to false. -/
theorem else_true_on_nonempty (files : List String) (l : Option String)
    (st : EvalState) (env : Env) (h : files ≠ []) :
    eval_condition ["else"] files l st env = (some true, st) := by
  obtain ⟨f, fs, rfl⟩ := List.exists_cons_of_ne_nil h
  simp [eval_condition, bangPrefixed, eval_condition2]

/-- Witness for `else_true_on_nonempty` at the file list `["x"]`. -/
theorem else_true_on_nonempty_witness :
    ((["x"] : List String) ≠ [])
    ∧ eval_condition ["else"] ["x"] none st0 env0 = (some true, st0) :=
  ⟨by decide, else_true_on_nonempty ["x"] none st0 env0 (by decide)⟩

/-- Claim C10: with an empty file list, every non-empty condition evaluates
to false when non-negated and to true when negated (the guard in
`_eval_condition2` fires before any function branch), and the evaluation
state is returned unmodified. -/
theorem eval_empty_file_list (c : String) (rest : List String) (l : Option String)
    (st : EvalState) (env : Env) :
    eval_condition (c :: rest) [] l st env = (some (bangPrefixed c), st) := by
  by_cases h : bangPrefixed c = true
  · simp [eval_condition, h, eval_condition2, truthyOpt]
  · rw [Bool.not_eq_true] at h
    simp [eval_condition, h, eval_condition2]

/-- Claim C6: for any condition whose function name is not already
negation-prefixed, prefixing `!` to the name inverts exactly the truth value
of the evaluation and produces the identical final state (all side effects
of the inner evaluation still occur). -/
theorem negation_inverts_truth_only (name : String) (rest : List String)
    (files : List String) (l : Option String) (st : EvalState) (env : Env)
    (h : bangPrefixed name = false) :
    truthyOpt (eval_condition (String.mk ('!' :: name.data) :: rest) files l st env).1
      = !(truthyOpt (eval_condition (name :: rest) files l st env).1)
    ∧ (eval_condition (String.mk ('!' :: name.data) :: rest) files l st env).2
      = (eval_condition (name :: rest) files l st env).2 := by
  have hb : bangPrefixed (String.mk ('!' :: name.data)) = true := rfl
  have hd : dropFirstChar (String.mk ('!' :: name.data)) = name := by
    cases name
    rfl
  rw [Bool.eq_false_iff] at h
  constructor <;>
    simp [eval_condition, hb, hd, h, truthyOpt]

/-- Witness for `negation_inverts_truth_only` at the condition `else` with
file list `["x"]`. -/
theorem negation_inverts_truth_only_witness :
    (bangPrefixed "else" = false)
    ∧ (truthyOpt (eval_condition (String.mk ('!' :: ("else" : String).data) :: []) ["x"] none st0 env0).1
        = !(truthyOpt (eval_condition (("else" : String) :: []) ["x"] none st0 env0).1)
      ∧ (eval_condition (String.mk ('!' :: ("else" : String).data) :: []) ["x"] none st0 env0).2
        = (eval_condition (("else" : String) :: []) ["x"] none st0 env0).2) :=
  ⟨by decide, negation_inverts_truth_only "else" [] ["x"] none st0 env0 (by decide)⟩

/-! ### Theorems about the rule selector -/

/-- The `n` consecutive integers starting after `c`. -/
def consecutiveFrom (c : Int) (n : Nat) : List Int :=
  (List.range n).map (fun i => c + 1 + Int.ofNat i)

lemma consecutiveFrom_succ (c : Int) (n : Nat) :
    consecutiveFrom c (n + 1) = (c + 1) :: consecutiveFrom (c + 1) n := by
  unfold consecutiveFrom
  rw [List.range_succ_eq_map, List.map_cons, List.map_map]
  congr 1
  · simp
  · apply List.map_congr_left
    intro i _
    simp only [Function.comp_apply, Nat.succ_eq_add_one, Int.ofNat_eq_natCast]
    push_cast
    ring

/-- When every rule's evaluation leaves the skip-target unset, the counts
yielded by the selector loop are consecutive from `c + 1`. -/
lemma listCommandsAux_counts (files : List String) (env : Env) :
    ∀ (rules : List Rule) (c : Int) (s : EvalState),
      (∀ p ∈ rules, ∀ s' : EvalState,
        ((evalTests p.2 files env (resetState s')).2).skip = none) →
      ((listCommandsAux rules files env c s).1.map (fun m => m.count))
        = consecutiveFrom c (listCommandsAux rules files env c s).1.length := by
  intro rules
  induction rules with
  | nil => intro c s _; simp [listCommandsAux, consecutiveFrom]
  | cons p rest ih =>
    intro c s H
    obtain ⟨cmd, tests⟩ := p
    have hskip : ((evalTests tests files env (resetState s)).2).skip = none :=
      H (cmd, tests) (List.mem_cons_self _ _) s
    have Hrest : ∀ q ∈ rest, ∀ s' : EvalState,
        ((evalTests q.2 files env (resetState s')).2).skip = none :=
      fun q hq => H q (List.mem_cons_of_mem _ hq)
    simp only [listCommandsAux]
    cases hok : (evalTests tests files env (resetState s)).1 with
    | false => simpa [hok] using ih c (evalTests tests files env (resetState s)).2 Hrest
    | true =>
      simp only [hok, if_true, hskip, List.map_cons, List.length_cons,
        consecutiveFrom_succ]
      rw [ih (c + 1) (evalTests tests files env (resetState s)).2 Hrest]

/-- The yielded commands form an in-order sublist of the rules'
commands: matches come in rule file order. -/
lemma listCommandsAux_cmds_sublist (files : List String) (env : Env) :
    ∀ (rules : List Rule) (c : Int) (s : EvalState),
      ((listCommandsAux rules files env c s).1.map (fun m => m.cmd)).Sublist
        (rules.map Prod.fst) := by
  intro rules
  induction rules with
  | nil => intro c s; simp [listCommandsAux]
  | cons p rest ih =>
    intro c s
    obtain ⟨cmd, tests⟩ := p
    simp only [listCommandsAux]
    cases hok : (evalTests tests files env (resetState s)).1 with
    | false =>
      simp only [hok, Bool.false_eq_true, if_false, List.map_cons]
      exact (ih c _).cons cmd
    | true =>
      simp only [hok, if_true, List.map_cons]
      exact (ih _ _).cons₂ cmd

/-- Claim C7: when no rule's evaluation sets a skip-target, `list_commands`
yields its matches in rule file order (the stream of yielded commands is an
in-order sublist of the rules' commands) and the k-th successful match
carries the effective index k-1: indices count from 0 across successful
matches only. -/
theorem list_commands_file_order (rules : List Rule) (files : List String)
    (env : Env) (mt : Option String) (st : EvalState)
    (H : ∀ p ∈ rules, ∀ s' : EvalState,
      ((evalTests p.2 files env (resetState s')).2).skip = none) :
    ((list_commands rules files env mt st).1.map (fun m => m.count))
      = (List.range (list_commands rules files env mt st).1.length).map Int.ofNat
    ∧ ((list_commands rules files env mt st).1.map (fun m => m.cmd)).Sublist
        (rules.map Prod.fst) := by
  constructor
  · rw [list_commands, listCommandsAux_counts files env rules (-1) _ H]
    apply List.map_congr_left
    intro i _
    omega
  · exact listCommandsAux_cmds_sublist files env rules (-1) _

/-- A three-rule configuration whose middle rule fails on `["a.txt"]`,
used to instantiate the rule-selector theorem. -/
def rules3 : List Rule :=
  [("c1", [["else"]]), ("c2", [["ext", "zzz"]]), ("c3", [["else"]])]

/-- Witness for `list_commands_file_order`: three rules against `["a.txt"]`
where the middle rule fails; the two matches are `c1` at index 0 and `c3`
at index 1. -/
theorem list_commands_file_order_witness :
    (∀ p ∈ rules3, ∀ s' : EvalState,
      ((evalTests p.2 ["a.txt"] env0 (resetState s')).2).skip = none)
    ∧ (((list_commands rules3 ["a.txt"] env0 none st0).1.map (fun m => m.count))
        = (List.range (list_commands rules3 ["a.txt"] env0 none st0).1.length).map
            Int.ofNat
      ∧ (((list_commands rules3 ["a.txt"] env0 none st0).1.map (fun m => m.cmd)).Sublist
          (rules3.map Prod.fst))) := by
  have H : ∀ p ∈ rules3, ∀ s' : EvalState,
      ((evalTests p.2 ["a.txt"] env0 (resetState s')).2).skip = none := by
    intro p hp s'
    simp only [rules3, List.mem_cons, List.not_mem_nil, or_false] at hp
    rcases hp with rfl | rfl | rfl <;>
      simp [evalTests, eval_condition, eval_condition2, bangPrefixed, truthyOpt, resetState] <;>
      split <;> rfl
  exact ⟨H, list_commands_file_order _ _ _ _ _ H⟩

/-! ### Theorems about the dispatch driver and the config loader -/

/-- Claim C1: `execute`'s own docstring promises that caller flags extend
the rule's flags (`flag pw` plus caller `Pf` should squash to `wf`), but the
loop variable `flags` shadows the parameter, so `_build_command` receives
the rule's flags a second time and the built flag string is
`squash("pw" + "pw") = "pwpw"`: the caller's flags are discarded. -/
theorem execute_flag_shadowing :
    ((executeCommand [("cmd", [["flag", "pw"]])] ["x"] 0 none (some "Pf") none env0 st0).map
        (fun r => r.2.1.app_flags)) = some "pwpw"
    ∧ squash_flags ("pw" ++ "Pf") = "wf"
    ∧ ("pwpw" : String) ≠ "wf" := by
  exact ⟨by decide, by decide, by decide⟩

/-- Claim C3: the config `["# comment", "bad"]` has its only malformed line
at file line 2, yet the single diagnostic reports line 1, because `continue`
on the comment line skips the `lineno += 1` at the end of the loop body.
The rule list itself is correct (no valid lines, none loaded) and loading
does not abort. -/
theorem reload_lineno_miscount :
    reload_config ["# comment", "bad"] = ([], [(1, "Line without delimiter")]) := by
  decide

/-- Claim C9: tag storage round-trips: after adding `a` and `b` to an empty
tag file, a fresh instance on the same file reads `{a, b}`; toggling `a`
removes it from the stored file, toggling `a` again re-adds it. -/
theorem tags_roundtrip :
    (tags_init (tags_add ["a", "b"] (tags_init ∅)).tagfile).tags = {"a", "b"}
    ∧ "a" ∉ (tags_toggle ["a"] (tags_add ["a", "b"] (tags_init ∅))).tagfile
    ∧ "a" ∈ (tags_toggle ["a"] (tags_toggle ["a"] (tags_add ["a", "b"] (tags_init ∅)))).tagfile := by
  refine ⟨by decide, by decide, by decide⟩

end RifleSpec
